import Mathlib

/-!
# ONNX gem, MNIST example client: `Gems/ONNX/Code/Source/Clients/Mnist.cpp`

A shallow embedding of `Mnist::Softmax`, `Mnist::GetResult`, `Mnist::LoadImage`
and `RunMnistSuite`.

Conventions of the embedding.

* `float` values are read as elements of an ordered field `α` (the theorems take
  `α = ℝ`); rounding, overflow and underflow of IEEE arithmetic are not modelled.
  A `float` division whose divisor is zero yields NaN or an infinity, which is
  no element of `α`: `fdiv` returns `none` there.
* `AZStd::exp2` is a parameter `exp2 : α → α`; the theorems instantiate it with
  `fun t => (2 : ℝ) ^ t`.
* Reading or writing a vector outside its bounds, and dereferencing an end
  iterator, is undefined behaviour: the embedded function returns `none`.
* The `int` counters of `RunMnistSuite` are unbounded integers (an overflow
  needs more than `2 ^ 31 - 1` processed image files).
-/

set_option linter.dupNamespace false

namespace Mnist

/-! ## Data model -/

/-- The members of the `Mnist` class that the example client reads and writes.
The `int` members `m_imageWidth` and `m_imageHeight` are natural numbers. -/
structure Mnist (α : Type) where
  m_imageWidth : Nat
  m_imageHeight : Nat
  m_input : List (List α)
  m_outputs : List (List α)
  m_result : Int
  m_delta : α
deriving DecidableEq

/-- The pair returned by `MnistExample`: predicted label and runtime. -/
structure MnistReturnValues (α : Type) where
  m_inference : Int
  m_runtime : α
deriving DecidableEq

/-- The record returned by `RunMnistSuite`. The average is `none` when the
`float` division that computes it has a zero divisor. -/
structure InferenceData (α : Type) where
  m_averageRuntimeInMs : Option α
  m_totalRuntimeInMs : α
  m_totalNumberOfInferences : Int
  m_numberOfCorrectInferences : Int
deriving DecidableEq

/-! ## `float` division -/

/-- The quotient `a / b` of two `float`s read in `α`; `none` for a zero divisor
(the IEEE result is then NaN or an infinity). -/
def fdiv {α : Type} [LinearOrderedField α] (a b : α) : Option α :=
  if b = 0 then none else some (a / b)

/-! ## `AZStd::ranges::max_element` -/

/-- The scan of `max_element` after its first element: `largest` is the index of
the current candidate, `largestVal` the value it points to, `first` the index of
the element examined next. The candidate moves only when `*largest < *first`. -/
def max_element_loop {α : Type} [LinearOrderedField α] :
    List α → Nat → α → Nat → Nat × α
  | [], largest, largestVal, _ => (largest, largestVal)
  | v :: rest, largest, largestVal, first =>
    if largestVal < v then max_element_loop rest first v (first + 1)
    else max_element_loop rest largest largestVal (first + 1)

/-- The iterator returned by `max_element(begin, end)`, as the pair of its
distance from `begin` and the value it points to; `none` is the end iterator of
an empty range, which must not be dereferenced. -/
def max_element {α : Type} [LinearOrderedField α] : List α → Option (Nat × α)
  | [] => none
  | v :: rest => some (max_element_loop rest 0 v 1)

/-! ## `Mnist::Softmax` -/

/-- The first loop of `Softmax`: `sum += y[i] = exp2(input[i] - rowmax)`. The
accumulator holds the entries of `y` written so far and the running `sum`. -/
def Softmax_expLoop {α : Type} [LinearOrderedField α] (exp2 : α → α) (rowmax : α) :
    List α → List α × α → List α × α
  | [], acc => acc
  | v :: rest, acc =>
    Softmax_expLoop exp2 rowmax rest
      (acc.1 ++ [exp2 (v - rowmax)], acc.2 + exp2 (v - rowmax))

/-- The second loop of `Softmax`: `input[i] = y[i] / sum`. -/
def Softmax_divLoop {α : Type} [LinearOrderedField α] (sum : α) :
    List α → Option (List α)
  | [] => some []
  | v :: rest =>
    match fdiv v sum, Softmax_divLoop sum rest with
    | some q, some qs => some (q :: qs)
    | _, _ => none

/-- The vector `y` and the value `sum` that `Softmax` holds after its first
loop. -/
def Softmax_ySum {α : Type} [LinearOrderedField α] (exp2 : α → α) (input : List α) :
    Option (List α × α) :=
  match max_element input with
  | none => none
  | some it => some (Softmax_expLoop exp2 it.2 input ([], 0))

/-- `Mnist::Softmax(input)`: the new contents of `input`. -/
def Softmax {α : Type} [LinearOrderedField α] (exp2 : α → α) (input : List α) :
    Option (List α) :=
  match Softmax_ySum exp2 input with
  | none => none
  | some ys => Softmax_divLoop ys.2 ys.1

/-! ## `Mnist::GetResult` -/

/-- The assignment `v[i] = a` on a vector; `none` when `i` is out of bounds. -/
def writeAt {α : Type} (v : List α) (i : Nat) (a : α) : Option (List α) :=
  if i < v.length then some (v.set i a) else none

/-- The assignment `m_input[0][i] = a`. -/
def writeInput0 {α : Type} (m_input : List (List α)) (i : Nat) (a : α) :
    Option (List (List α)) :=
  match m_input with
  | [] => none
  | input0 :: others =>
    match writeAt input0 i a with
    | none => none
    | some input0' => some (input0' :: others)

/-- The body of the inner loop of `LoadImage` at pixel `(x, y)`: the byte is read
at `y * m_imageWidth + x`; a zero byte stores `0.0f` at `m_imageWidth * y + x`,
any other byte stores `1.0f` at `m_imageHeight * y + x`. -/
def LoadImage_pixel {α : Type} [Zero α] [One α] (m_imageWidth m_imageHeight : Nat)
    (buffer : List (Fin 256)) (y : Nat) (m_input : List (List α)) (x : Nat) :
    Option (List (List α)) :=
  match buffer[y * m_imageWidth + x]? with
  | none => none
  | some content =>
    if content = 0 then writeInput0 m_input (m_imageWidth * y + x) 0
    else writeInput0 m_input (m_imageHeight * y + x) 1

/-- The inner loop `for (int x = 0; x < m_imageWidth; x++)` of row `y`. -/
def LoadImage_row {α : Type} [Zero α] [One α] (m_imageWidth m_imageHeight : Nat)
    (buffer : List (Fin 256)) (m_input : List (List α)) (y : Nat) :
    Option (List (List α)) :=
  (List.range m_imageWidth).foldlM
    (LoadImage_pixel m_imageWidth m_imageHeight buffer y) m_input

/-- `Mnist::LoadImage(path)`, given the byte buffer that decoding the file at
`path` produced. -/
def LoadImage {α : Type} [Zero α] [One α] (mnist : Mnist α) (buffer : List (Fin 256)) :
    Option (Mnist α) :=
  match (List.range mnist.m_imageHeight).foldlM
      (LoadImage_row mnist.m_imageWidth mnist.m_imageHeight buffer) mnist.m_input with
  | none => none
  | some m_input' => some { mnist with m_input := m_input' }

/-- The binarized value of a pixel byte, in the words of the specification: a
pure black pixel is `0`, anything else is `1`. -/
def binarize {α : Type} [Zero α] [One α] (content : Fin 256) : α :=
  if content = 0 then 0 else 1

/-! ## `RunMnistSuite` -/

/-- The C library predicate `isspace` in the "C" locale. -/
def isspace (c : Char) : Bool :=
  c.toNat = 32 || (9 ≤ c.toNat && c.toNat ≤ 13)

/-- The C library call `strtoll(str, &end, 10)`: leading white space is skipped,
an optional sign is read, then the longest run of decimal digits. The result is
`none` when no digit was read (then `end == str`), else the value, clamped to the
range of `long long`. -/
def strtoll (str : String) : Option Int :=
  let afterSpace := str.toList.dropWhile isspace
  let signed : Bool × List Char :=
    match afterSpace with
    | c :: rest =>
      if c.toNat = 45 then (true, rest)
      else if c.toNat = 43 then (false, rest)
      else (false, c :: rest)
    | [] => (false, [])
  let digits := signed.2.takeWhile Char.isDigit
  if digits.isEmpty then none
  else
    let magnitude : Nat := digits.foldl (fun acc c => 10 * acc + (c.toNat - 48)) 0
    let value : Int := if signed.1 then - (magnitude : Int) else (magnitude : Int)
    some (max (-(2 : Int) ^ 63) (min ((2 : Int) ^ 63 - 1) value))

/-- An entry that `FindFiles` reports for the pattern `<root>/*`. `pngFiles` lists,
in enumeration order, the matches of `<root>/<filename>/*.png`, each given by the
values `MnistExample` returns when it is run on that file. -/
structure DirectoryEntry (α : Type) where
  filename : String
  isFile : Bool
  pngFiles : List (MnistReturnValues α)

/-- The local variables of `RunMnistSuite` that its callbacks capture by
reference. -/
structure SuiteLocals (α : Type) where
  totalFiles : Int
  numOfCorrectInferences : Int
  totalRuntimeInMilliseconds : α
deriving DecidableEq

/-- `AZ::IO::SystemFile::FindFiles`: calls `callback` on each match in turn and
stops as soon as the callback returns `false`. -/
def FindFiles {σ ε : Type} (callback : σ → ε → σ × Bool) : List ε → σ → σ
  | [], s => s
  | e :: rest, s =>
    if (callback s e).2 then FindFiles callback rest (callback s e).1
    else (callback s e).1

/-- The inner callback `RunMnistExample`. Its state is the captured locals of the
suite together with the per-directory counter `version`. -/
def RunMnistExample {α : Type} [LinearOrderedField α] (numOfEach digit : Int)
    (s : SuiteLocals α × Int) (returnedValues : MnistReturnValues α) :
    (SuiteLocals α × Int) × Bool :=
  if s.2 < numOfEach then
    (({ totalFiles := s.1.totalFiles + 1
        numOfCorrectInferences :=
          if returnedValues.m_inference = digit then s.1.numOfCorrectInferences + 1
          else s.1.numOfCorrectInferences
        totalRuntimeInMilliseconds :=
          s.1.totalRuntimeInMilliseconds + returnedValues.m_runtime }, s.2 + 1), true)
  else (s, true)

/-- The outer callback `TestImage`. -/
def TestImage {α : Type} [LinearOrderedField α] (numOfEach : Int)
    (s : SuiteLocals α) (entry : DirectoryEntry α) : SuiteLocals α × Bool :=
  if !entry.isFile then
    match strtoll entry.filename with
    | some digit =>
      ((FindFiles (RunMnistExample numOfEach digit) entry.pngFiles (s, 0)).1, true)
    | none => (s, true)
  else (s, true)

/-- The locals of `RunMnistSuite` after the walk of the test image folder.
`testing` is `none` when `ResolvePath` fails, else the entries under the resolved
root. -/
def RunMnistSuite_walk {α : Type} [LinearOrderedField α] (testsPerDigit : Int)
    (testing : Option (List (DirectoryEntry α))) : SuiteLocals α :=
  match testing with
  | some entries => FindFiles (TestImage testsPerDigit) entries ⟨0, 0, 0⟩
  | none => ⟨0, 0, 0⟩

/-- The local `accuracy` of `RunMnistSuite`, which it prints. -/
def RunMnistSuite_accuracy {α : Type} [LinearOrderedField α] (testsPerDigit : Int)
    (testing : Option (List (DirectoryEntry α))) : Option α :=
  let s := RunMnistSuite_walk testsPerDigit testing
  (fdiv (s.numOfCorrectInferences : α) (s.totalFiles : α)).map (fun q => q * 100)

/-- `RunMnistSuite(testsPerDigit, cudaEnable)`. The flag `cudaEnable` selects the
execution device and the printed run type only and is left out. -/
def RunMnistSuite {α : Type} [LinearOrderedField α] (testsPerDigit : Int)
    (testing : Option (List (DirectoryEntry α))) : InferenceData α :=
  let s := RunMnistSuite_walk testsPerDigit testing
  { m_averageRuntimeInMs := fdiv s.totalRuntimeInMilliseconds (s.totalFiles : α)
    m_totalRuntimeInMs := s.totalRuntimeInMilliseconds
    m_totalNumberOfInferences := s.totalFiles
    m_numberOfCorrectInferences := s.numOfCorrectInferences }

/-! ## Reference definitions, in the words of the specification -/

/-- The normalized exponential of a vector for the exponential function `exp`:
entry `i` is `exp (x i) / ∑ j, exp (x j)`. -/
def softmaxReference {α : Type} [LinearOrderedField α] (exp : α → α) (x : List α) :
    List α :=
  x.map (fun v => exp v / (x.map exp).sum)

/-- The label directories of the test folder: the entries that are no file and
whose name starts with a number, each with its true label and its png files. -/
def labelDirectories {α : Type} (entries : List (DirectoryEntry α)) :
    List (Int × List (MnistReturnValues α)) :=
  entries.filterMap (fun e =>
    if e.isFile then none else (strtoll e.filename).map (fun d => (d, e.pngFiles)))

/-- The samples a run processes, each as the pair of the true label of its
directory and the returned prediction and runtime: of every label directory the
first `testsPerDigit` png files. -/
def processedSamples {α : Type} (testsPerDigit : Int)
    (testing : Option (List (DirectoryEntry α))) : List (Int × MnistReturnValues α) :=
  match testing with
  | none => []
  | some entries =>
    (labelDirectories entries).flatMap
      (fun d => (d.2.take testsPerDigit.toNat).map (fun r => (d.1, r)))

/-- The samples of one entry of the test folder among `processedSamples`: none for
a file or a name without a number, else the first `testsPerDigit` png files. -/
def entrySamples {α : Type} (testsPerDigit : Int) (e : DirectoryEntry α) :
    List (Int × MnistReturnValues α) :=
  if e.isFile then []
  else
    match strtoll e.filename with
    | some d => (e.pngFiles.take testsPerDigit.toNat).map (fun r => (d, r))
    | none => []

/-- The counts and the cumulative runtime of a list of samples, added to the
locals `s`: the number of samples, the number of those whose predicted label is
the true label, and the sum of their runtimes. -/
def tally {α : Type} [LinearOrderedField α] (s : SuiteLocals α)
    (samples : List (Int × MnistReturnValues α)) : SuiteLocals α :=
  { totalFiles := s.totalFiles + (samples.length : Int)
    numOfCorrectInferences := s.numOfCorrectInferences
      + ((samples.filter (fun p => decide (p.2.m_inference = p.1))).length : Int)
    totalRuntimeInMilliseconds := s.totalRuntimeInMilliseconds
      + (samples.map (fun p => p.2.m_runtime)).sum }

/-! ## Lemmas on `max_element` -/

theorem max_element_loop_spec {α : Type} [LinearOrderedField α] (rest : List α) :
    ∀ (pre : List α) (largest : Nat) (lv : α),
      pre[largest]? = some lv → (∀ v ∈ pre, v ≤ lv) →
      (∀ j, j < largest → ∀ v, pre[j]? = some v → v < lv) →
      (pre ++ rest)[(max_element_loop rest largest lv pre.length).1]?
          = some (max_element_loop rest largest lv pre.length).2 ∧
        (∀ v ∈ pre ++ rest, v ≤ (max_element_loop rest largest lv pre.length).2) ∧
        (∀ j, j < (max_element_loop rest largest lv pre.length).1 →
          ∀ v, (pre ++ rest)[j]? = some v →
            v < (max_element_loop rest largest lv pre.length).2) := by
  induction rest with
  | nil =>
    intro pre largest lv h1 h2 h3
    simpa [max_element_loop] using ⟨h1, h2, h3⟩
  | cons w rest ih =>
    intro pre largest lv h1 h2 h3
    have hlen : (pre ++ [w]).length = pre.length + 1 := by simp
    have happ : pre ++ w :: rest = (pre ++ [w]) ++ rest := by simp
    have hlt : largest < pre.length := by
      by_contra hc
      rw [List.getElem?_eq_none (by omega)] at h1
      exact Option.noConfusion h1
    by_cases hw : lv < w
    · have key := ih (pre ++ [w]) pre.length w (by simp)
        (by
          intro v hv
          rcases List.mem_append.1 hv with hv | hv
          · exact le_trans (h2 v hv) (le_of_lt hw)
          · simp at hv; exact le_of_eq hv)
        (by
          intro j hj v hv
          rw [List.getElem?_append_left hj] at hv
          exact lt_of_le_of_lt (h2 v (List.getElem?_mem hv)) hw)
      rw [hlen] at key
      rw [happ]
      simpa [max_element_loop, hw] using key
    · have hwle : w ≤ lv := not_lt.1 hw
      have key := ih (pre ++ [w]) largest lv
        (by rw [List.getElem?_append_left hlt]; exact h1)
        (by
          intro v hv
          rcases List.mem_append.1 hv with hv | hv
          · exact h2 v hv
          · simp at hv; rw [hv]; exact hwle)
        (by
          intro j hj v hv
          rw [List.getElem?_append_left (by omega)] at hv
          exact h3 j hj v hv)
      rw [hlen] at key
      rw [happ]
      simpa [max_element_loop, hw] using key

/-- On a non-empty range `max_element` returns the first position that holds the
greatest value. -/
theorem max_element_spec {α : Type} [LinearOrderedField α] (x : List α) (hx : x ≠ []) :
    ∃ k m, max_element x = some (k, m) ∧ x[k]? = some m ∧ (∀ v ∈ x, v ≤ m) ∧
      (∀ j, j < k → ∀ v, x[j]? = some v → v < m) := by
  cases x with
  | nil => exact absurd rfl hx
  | cons a rest =>
    have key := max_element_loop_spec rest [a] 0 a (by simp) (by simp)
      (by intro j hj; omega)
    exact ⟨_, _, rfl, by simpa using key⟩

theorem Softmax_expLoop_eq {α : Type} [LinearOrderedField α] (exp2 : α → α) (rowmax : α)
    (x : List α) :
    ∀ acc : List α × α,
      Softmax_expLoop exp2 rowmax x acc
        = (acc.1 ++ x.map (fun v => exp2 (v - rowmax)),
            acc.2 + (x.map (fun v => exp2 (v - rowmax))).sum) := by
  induction x with
  | nil => intro acc; simp [Softmax_expLoop]
  | cons a rest ih =>
    intro acc
    simp [Softmax_expLoop, ih, add_assoc]

theorem Softmax_divLoop_eq {α : Type} [LinearOrderedField α] (sum : α) (hs : sum ≠ 0)
    (y : List α) : Softmax_divLoop sum y = some (y.map (fun v => v / sum)) := by
  induction y with
  | nil => simp [Softmax_divLoop]
  | cons a rest ih => simp [Softmax_divLoop, ih, fdiv, hs]

theorem sum_map_exp_pos {α : Type} [LinearOrderedField α] (g : α → α)
    (hpos : ∀ t, 0 < g t) (x : List α) (hx : x ≠ []) : 0 < (x.map g).sum := by
  cases x with
  | nil => exact absurd rfl hx
  | cons a rest =>
    have h : 0 ≤ (rest.map g).sum :=
      List.sum_nonneg (by
        intro v hv
        rcases List.mem_map.1 hv with ⟨u, _, rfl⟩
        exact le_of_lt (hpos u))
    simp only [List.map_cons, List.sum_cons]
    exact add_pos_of_pos_of_nonneg (hpos a) h

theorem sum_map_div {α : Type} [LinearOrderedField α] (s : α) (y : List α) :
    (y.map (fun v => v / s)).sum = y.sum / s := by
  induction y with
  | nil => simp
  | cons a rest ih => simp [ih, add_div]

/-- The closed form of `Softmax` for a positive `exp2`: with `it` the iterator that
`max_element` returns, `y` is the map of `exp2 (· - *it)` over the input, `sum`
its sum, and the result the entries of `y` divided by `sum`. -/
theorem Softmax_closed_form {α : Type} [LinearOrderedField α] (exp2 : α → α)
    (hpos : ∀ t, 0 < exp2 t) (x : List α) (k : Nat) (m : α)
    (hmax : max_element x = some (k, m)) :
    Softmax_ySum exp2 x
        = some (x.map (fun v => exp2 (v - m)), (x.map (fun v => exp2 (v - m))).sum) ∧
      Softmax exp2 x
        = some (x.map (fun v => exp2 (v - m) / (x.map (fun v => exp2 (v - m))).sum)) := by
  have hx : x ≠ [] := by
    rintro rfl
    simp [max_element] at hmax
  have hsum : (x.map (fun v => exp2 (v - m))).sum ≠ 0 :=
    ne_of_gt (sum_map_exp_pos (fun v => exp2 (v - m)) (fun t => hpos _) x hx)
  have hy : Softmax_ySum exp2 x
      = some (x.map (fun v => exp2 (v - m)), (x.map (fun v => exp2 (v - m))).sum) := by
    simp [Softmax_ySum, hmax, Softmax_expLoop_eq]
  refine ⟨hy, ?_⟩
  simp only [Softmax, hy]
  rw [Softmax_divLoop_eq _ hsum]
  simp [List.map_map, Function.comp_def]

theorem two_rpow_pos (t : ℝ) : 0 < (2 : ℝ) ^ t :=
  Real.rpow_pos_of_pos two_pos t

theorem Softmax_real_closed_form (x : List ℝ) (hx : x ≠ []) :
    ∃ k m, max_element x = some (k, m) ∧ x[k]? = some m ∧ (∀ v ∈ x, v ≤ m) ∧
      (∀ j, j < k → ∀ v, x[j]? = some v → v < m) ∧
      0 < (x.map (fun v => (2 : ℝ) ^ (v - m))).sum ∧
      Softmax_ySum (fun t : ℝ => (2 : ℝ) ^ t) x
        = some (x.map (fun v => (2 : ℝ) ^ (v - m)),
            (x.map (fun v => (2 : ℝ) ^ (v - m))).sum) ∧
      Softmax (fun t : ℝ => (2 : ℝ) ^ t) x
        = some (x.map (fun v =>
            (2 : ℝ) ^ (v - m) / (x.map (fun v => (2 : ℝ) ^ (v - m))).sum)) := by
  obtain ⟨k, m, hmax, hk, hle, hlt⟩ := max_element_spec x hx
  have hc := Softmax_closed_form (fun t : ℝ => (2 : ℝ) ^ t) two_rpow_pos x k m hmax
  exact ⟨k, m, hmax, hk, hle, hlt,
    sum_map_exp_pos (fun v => (2 : ℝ) ^ (v - m)) (fun t => two_rpow_pos _) x hx,
    hc.1, hc.2⟩

/-- The result of `Softmax` is the normalized exponential of its input to the
base two. -/
theorem Softmax_base_two (x : List ℝ) (hx : x ≠ []) :
    Softmax (fun t : ℝ => (2 : ℝ) ^ t) x
      = some (softmaxReference (fun t : ℝ => (2 : ℝ) ^ t) x) := by
  obtain ⟨k, m, -, -, -, -, -, -, hS⟩ := Softmax_real_closed_form x hx
  rw [hS]
  have hm : (2 : ℝ) ^ m ≠ 0 := ne_of_gt (two_rpow_pos m)
  have hsum : (x.map (fun v => (2 : ℝ) ^ (v - m))).sum
      = (x.map (fun t : ℝ => (2 : ℝ) ^ t)).sum / (2 : ℝ) ^ m := by
    rw [← sum_map_div, List.map_map]
    congr 1
    apply List.map_congr_left
    intro v _
    simp [Real.rpow_sub two_pos]
  rw [hsum]
  simp only [softmaxReference, Option.some.injEq]
  apply List.map_congr_left
  intro v _
  rw [Real.rpow_sub two_pos]
  field_simp

/-! ## Claims on `Softmax` and `GetResult` -/

/-- C1. For every non-empty vector `x`, its entries read as real numbers,
`Softmax` returns, and the entries of the result sum to exactly one. -/
theorem Softmax_sum_eq_one (x : List ℝ) (hx : x ≠ []) :
    ∃ out, Softmax (fun t : ℝ => (2 : ℝ) ^ t) x = some out ∧ out.sum = 1 := by
  obtain ⟨k, m, -, -, -, -, hpos, -, hS⟩ := Softmax_real_closed_form x hx
  refine ⟨_, hS, ?_⟩
  have h := sum_map_div (x.map (fun v => (2 : ℝ) ^ (v - m))).sum
    (x.map (fun v => (2 : ℝ) ^ (v - m)))
  rw [List.map_map] at h
  have h' : (x.map (fun v =>
      (2 : ℝ) ^ (v - m) / (x.map (fun v => (2 : ℝ) ^ (v - m))).sum)).sum
        = (x.map (fun v => (2 : ℝ) ^ (v - m))).sum
            / (x.map (fun v => (2 : ℝ) ^ (v - m))).sum := h
  rw [h', div_self (ne_of_gt hpos)]

theorem Softmax_sum_eq_one_witness :
    ([0, 1] : List ℝ) ≠ [] ∧
      ∃ out, Softmax (fun t : ℝ => (2 : ℝ) ^ t) [0, 1] = some out ∧ out.sum = 1 :=
  ⟨by simp, Softmax_sum_eq_one [0, 1] (by simp)⟩

/-- C8. `Softmax` does not compute the normalized exponential for the natural
exponential: on the vector `(0, 1)` it returns `(1/3, 2/3)`, the normalized
exponential to the base two, while the reference definition
`exp (x i) / ∑ j, exp (x j)` gives another vector. -/
theorem Softmax_differs_from_natural_exponential :
    Softmax (fun t : ℝ => (2 : ℝ) ^ t) [0, 1] = some [1 / 3, 2 / 3] ∧
      softmaxReference Real.exp [0, 1] ≠ [1 / 3, 2 / 3] := by
  constructor
  · rw [Softmax_base_two [0, 1] (by simp)]
    simp only [softmaxReference, List.map_cons, List.map_nil, List.sum_cons,
      List.sum_nil, Real.rpow_zero, Real.rpow_one]
    norm_num
  · intro h
    simp only [softmaxReference, List.map_cons, List.map_nil, List.sum_cons,
      List.sum_nil, Real.exp_zero, add_zero, List.cons.injEq, and_true] at h
    have he : Real.exp 1 = 2 := by
      have hpos : (0 : ℝ) < 1 + Real.exp 1 := by positivity
      have h1 := h.1
      field_simp at h1
      linarith
    have := Real.exp_one_gt_d9
    rw [he] at this
    norm_num at this

/-! ## Lemmas on `LoadImage` -/

theorem set_take_drop {α : Type} (A v : List α) (p : Nat) (hA : A.length = p)
    (hp : p < v.length) (a : α) :
    (A ++ v.drop p).set p a = (A ++ [a]) ++ v.drop (p + 1) := by
  rw [List.drop_eq_getElem_cons hp, List.set_append]
  simp only [hA, Nat.lt_irrefl, if_false, Nat.sub_self, List.set_cons_zero,
    List.append_assoc, List.singleton_append]

/-- The state of `m_input[0]` of a square image once the pixels at the row-major
positions below `p` are stored: binarized bytes below `p`, old contents from `p`
on. One more pixel extends the binarized part by one position. -/
theorem LoadImage_pixel_square {α : Type} [Zero α] [One α] (n : Nat)
    (buffer : List (Fin 256)) (v : List α) (others : List (List α)) (y x : Nat)
    (hb : n * y + x < buffer.length) (hv : n * y + x < v.length) :
    LoadImage_pixel n n buffer y
        (((buffer.take (n * y + x)).map binarize ++ v.drop (n * y + x)) :: others) x
      = some (((buffer.take (n * y + x + 1)).map binarize
          ++ v.drop (n * y + x + 1)) :: others) := by
  have hidx : y * n + x = n * y + x := by rw [Nat.mul_comm]
  have hA : ((buffer.take (n * y + x)).map (binarize : Fin 256 → α)).length
      = n * y + x := by
    simp [List.length_take]; omega
  have hlen : n * y + x
      < ((buffer.take (n * y + x)).map (binarize : Fin 256 → α)
          ++ v.drop (n * y + x)).length := by
    simp [List.length_take]; omega
  have htake : (buffer.take (n * y + x + 1)).map (binarize : Fin 256 → α)
      = (buffer.take (n * y + x)).map binarize ++ [binarize buffer[n * y + x]] := by
    rw [List.take_succ, List.getElem?_eq_getElem hb]
    simp only [Option.toList, List.map_append, List.map_cons, List.map_nil]
  unfold LoadImage_pixel
  rw [hidx, List.getElem?_eq_getElem hb]
  by_cases hc : buffer[n * y + x] = 0
  · simp only [hc, if_true, writeInput0, writeAt, hlen]
    rw [set_take_drop _ v _ hA hv, htake, hc]
    simp [binarize]
  · simp only [hc, if_false, writeInput0, writeAt, hlen, if_true]
    rw [set_take_drop _ v _ hA hv, htake]
    simp [binarize, hc]

theorem LoadImage_row_square_upto {α : Type} [Zero α] [One α] (n : Nat)
    (buffer : List (Fin 256)) (v : List α) (others : List (List α)) (y : Nat)
    (hy : y < n) (hb : buffer.length = n * n) (hv : v.length = n * n) :
    ∀ x, x ≤ n →
      (List.range x).foldlM (LoadImage_pixel n n buffer y)
          (((buffer.take (n * y)).map binarize ++ v.drop (n * y)) :: others)
        = some (((buffer.take (n * y + x)).map binarize
            ++ v.drop (n * y + x)) :: others) := by
  intro x
  induction x with
  | zero => intro _; simp
  | succ x ih =>
    intro hx
    have hbound : n * y + x < n * n := by
      have h1 : n * (y + 1) ≤ n * n := Nat.mul_le_mul_left n hy
      rw [Nat.mul_succ] at h1
      omega
    rw [List.range_succ, List.foldlM_append, ih (by omega)]
    simp only [Option.bind_eq_bind, Option.some_bind, List.foldlM_cons, List.foldlM_nil,
      bind_pure]
    rw [LoadImage_pixel_square n buffer v others y x (by omega) (by omega)]
    rfl

theorem LoadImage_row_square {α : Type} [Zero α] [One α] (n : Nat)
    (buffer : List (Fin 256)) (v : List α) (others : List (List α)) (y : Nat)
    (hy : y < n) (hb : buffer.length = n * n) (hv : v.length = n * n) :
    LoadImage_row n n buffer
        (((buffer.take (n * y)).map binarize ++ v.drop (n * y)) :: others) y
      = some (((buffer.take (n * (y + 1))).map binarize
          ++ v.drop (n * (y + 1))) :: others) := by
  unfold LoadImage_row
  rw [LoadImage_row_square_upto n buffer v others y hy hb hv n (le_refl n),
    Nat.mul_succ]

theorem LoadImage_rows_square {α : Type} [Zero α] [One α] (n : Nat)
    (buffer : List (Fin 256)) (v : List α) (others : List (List α))
    (hb : buffer.length = n * n) (hv : v.length = n * n) :
    ∀ y, y ≤ n →
      (List.range y).foldlM (LoadImage_row n n buffer) (v :: others)
        = some (((buffer.take (n * y)).map binarize ++ v.drop (n * y)) :: others) := by
  intro y
  induction y with
  | zero => intro _; simp
  | succ y ih =>
    intro hy
    rw [List.range_succ, List.foldlM_append, ih (by omega)]
    simp only [Option.bind_eq_bind, Option.some_bind, List.foldlM_cons, List.foldlM_nil,
      bind_pure]
    rw [LoadImage_row_square n buffer v others y (by omega) hb hv]

/-- On a square image `LoadImage` replaces `m_input[0]` by the binarized buffer. -/
theorem LoadImage_square {α : Type} [Zero α] [One α] (n : Nat) (mnist : Mnist α)
    (buffer : List (Fin 256)) (v : List α) (others : List (List α))
    (hW : mnist.m_imageWidth = n) (hH : mnist.m_imageHeight = n)
    (hin : mnist.m_input = v :: others)
    (hb : buffer.length = n * n) (hv : v.length = n * n) :
    LoadImage mnist buffer
      = some { mnist with m_input := buffer.map binarize :: others } := by
  unfold LoadImage
  rw [hW, hH, hin, LoadImage_rows_square n buffer v others hb hv n (le_refl n)]
  simp [List.take_of_length_le (le_of_eq hb), List.drop_of_length_le (le_of_eq hv)]

/-! ## Claims on `LoadImage` -/

/-- C4. For the image size of the example, `m_imageWidth = m_imageHeight = 28`
with `m_input[0]` of length 784, and every decoded buffer of 784 bytes,
`LoadImage` returns and afterwards every entry `m_input[0][28 * y + x]` with
`x, y < 28` is `0` if the byte `buffer[28 * y + x]` is zero and `1` otherwise; the
new `m_input[0]` is the binarized buffer, whatever `m_input[0]` held before. -/
theorem LoadImage_binarizes_28 {α : Type} [Zero α] [One α] (mnist : Mnist α)
    (buffer : List (Fin 256)) (input0 : List α) (others : List (List α))
    (hW : mnist.m_imageWidth = 28) (hH : mnist.m_imageHeight = 28)
    (hin : mnist.m_input = input0 :: others)
    (hlen : input0.length = 784) (hb : buffer.length = 784) :
    ∃ mnist' input0', LoadImage mnist buffer = some mnist' ∧
      mnist'.m_input = input0' :: others ∧ input0'.length = 784 ∧
      (∀ x y, x < 28 → y < 28 → ∃ content, buffer[28 * y + x]? = some content ∧
        input0'[28 * y + x]? = some (if content = 0 then 0 else 1)) ∧
      input0' = buffer.map binarize := by
  refine ⟨_, buffer.map binarize,
    LoadImage_square 28 mnist buffer input0 others hW hH hin hb hlen, rfl,
    by simp [hb], ?_, rfl⟩
  intro x y hx hy
  have hlt : 28 * y + x < buffer.length := by omega
  refine ⟨buffer[28 * y + x], List.getElem?_eq_getElem hlt, ?_⟩
  rw [List.getElem?_map, List.getElem?_eq_getElem hlt]
  rfl

theorem LoadImage_binarizes_28_witness :
    (⟨28, 28, [List.replicate 784 (7 : ℚ)], [], 0, 0⟩ : Mnist ℚ).m_imageWidth = 28 ∧
      (List.replicate 784 (7 : ℚ)).length = 784 ∧
      (List.replicate 784 (255 : Fin 256)).length = 784 ∧
      ∃ mnist' input0',
        LoadImage (⟨28, 28, [List.replicate 784 (7 : ℚ)], [], 0, 0⟩ : Mnist ℚ)
          (List.replicate 784 (255 : Fin 256)) = some mnist' ∧
        mnist'.m_input = input0' :: [] ∧ input0'.length = 784 ∧
        (∀ x y, x < 28 → y < 28 →
          ∃ content, (List.replicate 784 (255 : Fin 256))[28 * y + x]? = some content ∧
            input0'[28 * y + x]? = some (if content = 0 then 0 else 1)) ∧
        input0' = (List.replicate 784 (255 : Fin 256)).map binarize :=
  ⟨rfl, List.length_replicate 784 _, List.length_replicate 784 _,
    LoadImage_binarizes_28 _ _ (List.replicate 784 (7 : ℚ)) [] rfl rfl rfl
      (List.length_replicate 784 _) (List.length_replicate 784 _)⟩

/-- C10. `LoadImage` does not store every pixel at its row-major index when the
width differs from the height. For width 3, height 2, the buffer
`0 0 0 / 1 0 0` and `m_input[0]` filled with `9`, the non-zero pixel `(0, 1)` is
stored at index `2 * 1 + 0 = 2` and not at `3 * 1 + 0 = 3`: index 2, whose pixel
is zero, ends as `1`, and index 3 keeps the old `9`. For width 1, height 2 and
the buffer `0 / 1` the store goes to index 2 of a vector of length 2. -/
theorem LoadImage_non_square_misplaces :
    LoadImage (⟨3, 2, [[9, 9, 9, 9, 9, 9]], [], 0, 0⟩ : Mnist ℚ) [0, 0, 0, 1, 0, 0]
        = some ⟨3, 2, [[0, 0, 1, 9, 0, 0]], [], 0, 0⟩ ∧
      LoadImage (⟨1, 2, [[9, 9]], [], 0, 0⟩ : Mnist ℚ) [0, 1] = none := by
  constructor <;> decide

/-! ## Lemmas on `RunMnistSuite` -/

theorem tally_nil {α : Type} [LinearOrderedField α] (s : SuiteLocals α) :
    tally s [] = s := by
  cases s
  simp [tally]

theorem tally_append {α : Type} [LinearOrderedField α] (s : SuiteLocals α)
    (A B : List (Int × MnistReturnValues α)) :
    tally (tally s A) B = tally s (A ++ B) := by
  simp only [tally, List.length_append, List.filter_append, List.map_append,
    List.sum_append, Nat.cast_add, add_assoc]

theorem tally_cons {α : Type} [LinearOrderedField α] (s : SuiteLocals α)
    (d : Int) (r : MnistReturnValues α) (B : List (Int × MnistReturnValues α)) :
    tally
        { totalFiles := s.totalFiles + 1
          numOfCorrectInferences :=
            if r.m_inference = d then s.numOfCorrectInferences + 1
            else s.numOfCorrectInferences
          totalRuntimeInMilliseconds := s.totalRuntimeInMilliseconds + r.m_runtime } B
      = tally s ((d, r) :: B) := by
  have h : ({ totalFiles := s.totalFiles + 1
              numOfCorrectInferences :=
                if r.m_inference = d then s.numOfCorrectInferences + 1
                else s.numOfCorrectInferences
              totalRuntimeInMilliseconds :=
                s.totalRuntimeInMilliseconds + r.m_runtime } : SuiteLocals α)
      = tally s [(d, r)] := by
    by_cases hc : r.m_inference = d <;> simp [tally, hc]
  rw [h, tally_append]
  rfl

/-- The enumeration of the png files of one label directory: from the counter
value `version` on, the first `numOfEach - version` files are run and tallied. -/
theorem FindFiles_RunMnistExample {α : Type} [LinearOrderedField α]
    (numOfEach digit : Int) (pngFiles : List (MnistReturnValues α)) :
    ∀ (s : SuiteLocals α) (version : Int),
      FindFiles (RunMnistExample numOfEach digit) pngFiles (s, version)
        = (tally s ((pngFiles.take (numOfEach - version).toNat).map
              (fun r => (digit, r))),
            version + ((pngFiles.take (numOfEach - version).toNat).length : Int)) := by
  induction pngFiles with
  | nil => intro s version; simp [FindFiles, tally_nil]
  | cons r rest ih =>
    intro s version
    by_cases hv : version < numOfEach
    · have hk : (numOfEach - version).toNat = (numOfEach - (version + 1)).toNat + 1 := by
        omega
      simp only [FindFiles, RunMnistExample, hv, if_true]
      rw [ih, hk, List.take_succ_cons, List.map_cons, tally_cons, List.length_cons]
      simp only [Nat.cast_add, Nat.cast_one]
      congr 1
      omega
    · have hk : (numOfEach - version).toNat = 0 := by omega
      simp only [FindFiles, RunMnistExample, hv, if_false, if_true]
      rw [ih, hk]
      simp

theorem TestImage_eq {α : Type} [LinearOrderedField α] (numOfEach : Int)
    (s : SuiteLocals α) (e : DirectoryEntry α) :
    TestImage numOfEach s e = (tally s (entrySamples numOfEach e), true) := by
  unfold TestImage entrySamples
  cases hf : e.isFile with
  | true => simp [tally_nil]
  | false =>
    cases hd : strtoll e.filename with
    | none => simp [tally_nil]
    | some d => simp [FindFiles_RunMnistExample]

theorem FindFiles_TestImage {α : Type} [LinearOrderedField α] (numOfEach : Int)
    (entries : List (DirectoryEntry α)) :
    ∀ s : SuiteLocals α,
      FindFiles (TestImage numOfEach) entries s
        = tally s (entries.flatMap (entrySamples numOfEach)) := by
  induction entries with
  | nil => intro s; simp [FindFiles, tally_nil]
  | cons e rest ih =>
    intro s
    simp only [FindFiles, TestImage_eq, if_true, ih, tally_append, List.flatMap_cons]

theorem processedSamples_some {α : Type} (testsPerDigit : Int)
    (entries : List (DirectoryEntry α)) :
    processedSamples testsPerDigit (some entries)
      = entries.flatMap (entrySamples testsPerDigit) := by
  simp only [processedSamples, labelDirectories]
  induction entries with
  | nil => simp
  | cons e rest ih =>
    cases hf : e.isFile with
    | true =>
      rw [List.filterMap_cons, List.flatMap_cons, ← ih]
      simp [entrySamples, hf]
    | false =>
      cases hd : strtoll e.filename with
      | none =>
        rw [List.filterMap_cons, List.flatMap_cons, ← ih]
        simp [entrySamples, hf, hd]
      | some d =>
        rw [List.filterMap_cons, List.flatMap_cons, ← ih]
        simp [entrySamples, hf, hd]

/-- The locals of `RunMnistSuite` after the walk are the tally of the processed
samples. -/
theorem RunMnistSuite_walk_eq {α : Type} [LinearOrderedField α] (testsPerDigit : Int)
    (testing : Option (List (DirectoryEntry α))) :
    RunMnistSuite_walk testsPerDigit testing
      = tally ⟨0, 0, 0⟩ (processedSamples testsPerDigit testing) := by
  cases testing with
  | none => simp [RunMnistSuite_walk, processedSamples, tally_nil]
  | some entries =>
    rw [processedSamples_some]
    simp only [RunMnistSuite_walk, FindFiles_TestImage]

theorem length_entrySamples_le {α : Type} (testsPerDigit : Int)
    (e : DirectoryEntry α) :
    (entrySamples testsPerDigit e).length ≤ testsPerDigit.toNat := by
  unfold entrySamples
  split
  · simp
  · split <;> simp [List.length_take]

theorem length_processed_eq_sum {α : Type} (testsPerDigit : Int)
    (h0 : 0 ≤ testsPerDigit) (entries : List (DirectoryEntry α)) :
    ((entries.flatMap (entrySamples testsPerDigit)).length : Int)
      = ((labelDirectories entries).map
          (fun d => min testsPerDigit (d.2.length : Int))).sum := by
  induction entries with
  | nil => simp [labelDirectories]
  | cons e rest ih =>
    have hrest : labelDirectories rest
        = List.filterMap (fun e : DirectoryEntry α =>
            if e.isFile then none
            else (strtoll e.filename).map (fun d => (d, e.pngFiles))) rest := rfl
    rw [List.flatMap_cons, List.length_append, Nat.cast_add, ih]
    unfold labelDirectories
    rw [List.filterMap_cons, ← hrest]
    cases hf : e.isFile with
    | true => simp [entrySamples, hf]
    | false =>
      cases hd : strtoll e.filename with
      | none => simp [entrySamples, hf, hd]
      | some d =>
        simp only [entrySamples, hf, hd, Option.map_some', List.map_cons, List.sum_cons,
          List.length_map, List.length_take, Bool.false_eq_true, if_false]
        omega

theorem sum_min_le {α : Type} (testsPerDigit : Int)
    (dirs : List (Int × List (MnistReturnValues α))) :
    (dirs.map (fun d => min testsPerDigit (d.2.length : Int))).sum
      ≤ testsPerDigit * (dirs.length : Int) := by
  induction dirs with
  | nil => simp
  | cons d rest ih =>
    simp only [List.map_cons, List.sum_cons, List.length_cons, Nat.cast_add, Nat.cast_one]
    have h1 : min testsPerDigit (d.2.length : Int) ≤ testsPerDigit := min_le_left _ _
    rw [mul_add, mul_one]
    linarith

/-! ## Claims on `RunMnistSuite` -/

/-- C5. For every run, `RunMnistSuite` returns `m_totalNumberOfInferences` equal to
the number of processed samples, `m_numberOfCorrectInferences` equal to the number
of those whose predicted label is the true label of their directory,
`m_totalRuntimeInMs` equal to the sum of their runtimes and `m_averageRuntimeInMs`
equal to the quotient of total runtime by total count; the accuracy it reports is
correct by total, times 100. When a sample was processed both quotients are
numbers. -/
theorem RunMnistSuite_aggregates {α : Type} [LinearOrderedField α] (testsPerDigit : Int)
    (testing : Option (List (DirectoryEntry α))) :
    (RunMnistSuite testsPerDigit testing).m_totalNumberOfInferences
        = ((processedSamples testsPerDigit testing).length : Int) ∧
      (RunMnistSuite testsPerDigit testing).m_numberOfCorrectInferences
        = (((processedSamples testsPerDigit testing).filter
            (fun p => decide (p.2.m_inference = p.1))).length : Int) ∧
      (RunMnistSuite testsPerDigit testing).m_totalRuntimeInMs
        = ((processedSamples testsPerDigit testing).map (fun p => p.2.m_runtime)).sum ∧
      (RunMnistSuite testsPerDigit testing).m_averageRuntimeInMs
        = fdiv ((processedSamples testsPerDigit testing).map (fun p => p.2.m_runtime)).sum
            ((processedSamples testsPerDigit testing).length : α) ∧
      RunMnistSuite_accuracy testsPerDigit testing
        = (fdiv
            ((((processedSamples testsPerDigit testing).filter
              (fun p => decide (p.2.m_inference = p.1))).length : Nat) : α)
            ((processedSamples testsPerDigit testing).length : α)).map
              (fun q => q * 100) ∧
      (processedSamples testsPerDigit testing ≠ [] →
        (RunMnistSuite testsPerDigit testing).m_averageRuntimeInMs
          = some (((processedSamples testsPerDigit testing).map
              (fun p => p.2.m_runtime)).sum
                / ((processedSamples testsPerDigit testing).length : α)) ∧
        RunMnistSuite_accuracy testsPerDigit testing
          = some (((((processedSamples testsPerDigit testing).filter
              (fun p => decide (p.2.m_inference = p.1))).length : Nat) : α)
                / ((processedSamples testsPerDigit testing).length : α) * 100)) := by
  have hw := RunMnistSuite_walk_eq testsPerDigit testing
  have havg : (RunMnistSuite testsPerDigit testing).m_averageRuntimeInMs
      = fdiv ((processedSamples testsPerDigit testing).map (fun p => p.2.m_runtime)).sum
          ((processedSamples testsPerDigit testing).length : α) := by
    simp [RunMnistSuite, hw, tally]
  have hacc : RunMnistSuite_accuracy testsPerDigit testing
      = (fdiv
          ((((processedSamples testsPerDigit testing).filter
            (fun p => decide (p.2.m_inference = p.1))).length : Nat) : α)
          ((processedSamples testsPerDigit testing).length : α)).map
            (fun q => q * 100) := by
    simp [RunMnistSuite_accuracy, hw, tally]
  refine ⟨by simp [RunMnistSuite, hw, tally], by simp [RunMnistSuite, hw, tally],
    by simp [RunMnistSuite, hw, tally], havg, hacc, ?_⟩
  intro hne
  have hlen : ((processedSamples testsPerDigit testing).length : α) ≠ 0 := by
    have : (processedSamples testsPerDigit testing).length ≠ 0 := by
      simpa [List.length_eq_zero] using hne
    exact_mod_cast this
  rw [havg, hacc]
  simp [fdiv, hlen]

theorem RunMnistSuite_aggregates_witness :
    processedSamples (2 : Int)
        (some [(⟨"7", false, [⟨7, 1⟩, ⟨1, 2⟩, ⟨7, 3⟩]⟩ : DirectoryEntry ℚ),
          ⟨"3", false, [⟨3, 5⟩]⟩]) ≠ [] ∧
      (RunMnistSuite (2 : Int)
          (some [(⟨"7", false, [⟨7, 1⟩, ⟨1, 2⟩, ⟨7, 3⟩]⟩ : DirectoryEntry ℚ),
            ⟨"3", false, [⟨3, 5⟩]⟩])).m_averageRuntimeInMs
        = some (((processedSamples (2 : Int)
            (some [(⟨"7", false, [⟨7, 1⟩, ⟨1, 2⟩, ⟨7, 3⟩]⟩ : DirectoryEntry ℚ),
              ⟨"3", false, [⟨3, 5⟩]⟩])).map (fun p => p.2.m_runtime)).sum
          / ((processedSamples (2 : Int)
            (some [(⟨"7", false, [⟨7, 1⟩, ⟨1, 2⟩, ⟨7, 3⟩]⟩ : DirectoryEntry ℚ),
              ⟨"3", false, [⟨3, 5⟩]⟩])).length : ℚ)) ∧
      RunMnistSuite_accuracy (2 : Int)
          (some [(⟨"7", false, [⟨7, 1⟩, ⟨1, 2⟩, ⟨7, 3⟩]⟩ : DirectoryEntry ℚ),
            ⟨"3", false, [⟨3, 5⟩]⟩])
        = some (((((processedSamples (2 : Int)
            (some [(⟨"7", false, [⟨7, 1⟩, ⟨1, 2⟩, ⟨7, 3⟩]⟩ : DirectoryEntry ℚ),
              ⟨"3", false, [⟨3, 5⟩]⟩])).filter
                (fun p => decide (p.2.m_inference = p.1))).length : Nat) : ℚ)
          / ((processedSamples (2 : Int)
            (some [(⟨"7", false, [⟨7, 1⟩, ⟨1, 2⟩, ⟨7, 3⟩]⟩ : DirectoryEntry ℚ),
              ⟨"3", false, [⟨3, 5⟩]⟩])).length : ℚ) * 100) :=
  ⟨by decide, (RunMnistSuite_aggregates (2 : Int) _).2.2.2.2.2 (by decide)⟩

/-- C6. The samples run per label are bounded. For every `testsPerDigit ≥ 0` the
callback `TestImage`, from any state of the locals, runs exactly
`min testsPerDigit k` samples of a label directory with `k` png files, so the
total of a run is the sum of these minima and at most `testsPerDigit` times the
number of label directories; for `testsPerDigit ≤ 0` no sample is run. -/
theorem RunMnistSuite_samples_per_label_bounded {α : Type} [LinearOrderedField α]
    (testsPerDigit : Int) :
    (∀ (s : SuiteLocals α) (e : DirectoryEntry α) (d : Int),
        e.isFile = false → strtoll e.filename = some d → 0 ≤ testsPerDigit →
        (TestImage testsPerDigit s e).1.totalFiles
          = s.totalFiles + min testsPerDigit (e.pngFiles.length : Int)) ∧
      (∀ entries : List (DirectoryEntry α), 0 ≤ testsPerDigit →
        (RunMnistSuite testsPerDigit (some entries)).m_totalNumberOfInferences
            = ((labelDirectories entries).map
                (fun d => min testsPerDigit (d.2.length : Int))).sum ∧
          (RunMnistSuite testsPerDigit (some entries)).m_totalNumberOfInferences
            ≤ testsPerDigit * ((labelDirectories entries).length : Int)) ∧
      (∀ testing : Option (List (DirectoryEntry α)), testsPerDigit ≤ 0 →
        (RunMnistSuite testsPerDigit testing).m_totalNumberOfInferences = 0) := by
  refine ⟨?_, ?_, ?_⟩
  · intro s e d hf hd h0
    rw [TestImage_eq]
    simp only [tally, entrySamples, hf, hd, List.length_map, List.length_take,
      Bool.false_eq_true, if_false]
    omega
  · intro entries h0
    have htotal : (RunMnistSuite testsPerDigit (some entries)).m_totalNumberOfInferences
        = ((labelDirectories entries).map
            (fun d => min testsPerDigit (d.2.length : Int))).sum := by
      rw [← length_processed_eq_sum testsPerDigit h0 entries]
      simp [RunMnistSuite, RunMnistSuite_walk_eq, processedSamples_some, tally]
    exact ⟨htotal, htotal ▸ sum_min_le testsPerDigit (labelDirectories entries)⟩
  · intro testing hn
    have hlen : (processedSamples testsPerDigit testing).length = 0 := by
      cases testing with
      | none => simp [processedSamples]
      | some entries =>
        rw [processedSamples_some]
        have hz : testsPerDigit.toNat = 0 := by omega
        induction entries with
        | nil => simp
        | cons e rest ih =>
          have := length_entrySamples_le testsPerDigit e
          rw [List.flatMap_cons, List.length_append, ih]
          omega
    simp [RunMnistSuite, RunMnistSuite_walk_eq, tally, hlen]

theorem RunMnistSuite_samples_per_label_bounded_witness :
    (TestImage (2 : Int) (⟨5, 1, 4⟩ : SuiteLocals ℚ)
        ⟨"7", false, [⟨7, 1⟩, ⟨1, 2⟩, ⟨7, 3⟩]⟩).1.totalFiles
        = 5 + min (2 : Int) (([⟨7, 1⟩, ⟨1, 2⟩, ⟨7, 3⟩] :
            List (MnistReturnValues ℚ)).length : Int) ∧
      ((RunMnistSuite (2 : Int)
          (some [(⟨"7", false, [⟨7, 1⟩, ⟨1, 2⟩, ⟨7, 3⟩]⟩ : DirectoryEntry ℚ),
            ⟨"readme", true, []⟩, ⟨"3", false, [⟨3, 5⟩]⟩])).m_totalNumberOfInferences
          = ((labelDirectories
              [(⟨"7", false, [⟨7, 1⟩, ⟨1, 2⟩, ⟨7, 3⟩]⟩ : DirectoryEntry ℚ),
                ⟨"readme", true, []⟩, ⟨"3", false, [⟨3, 5⟩]⟩]).map
              (fun d => min (2 : Int) (d.2.length : Int))).sum ∧
        (RunMnistSuite (2 : Int)
          (some [(⟨"7", false, [⟨7, 1⟩, ⟨1, 2⟩, ⟨7, 3⟩]⟩ : DirectoryEntry ℚ),
            ⟨"readme", true, []⟩, ⟨"3", false, [⟨3, 5⟩]⟩])).m_totalNumberOfInferences
          ≤ (2 : Int) * ((labelDirectories
              [(⟨"7", false, [⟨7, 1⟩, ⟨1, 2⟩, ⟨7, 3⟩]⟩ : DirectoryEntry ℚ),
                ⟨"readme", true, []⟩, ⟨"3", false, [⟨3, 5⟩]⟩]).length : Int)) ∧
      (RunMnistSuite (0 : Int)
        (some [(⟨"7", false, [⟨7, 1⟩]⟩ : DirectoryEntry ℚ)])).m_totalNumberOfInferences
        = 0 :=
  ⟨(RunMnistSuite_samples_per_label_bounded 2).1 ⟨5, 1, 4⟩
      ⟨"7", false, [⟨7, 1⟩, ⟨1, 2⟩, ⟨7, 3⟩]⟩ 7 rfl (by decide) (by decide),
    (RunMnistSuite_samples_per_label_bounded 2).2.1 _ (by decide),
    (RunMnistSuite_samples_per_label_bounded 0).2.2 _ (le_refl 0)⟩

/-- C7. A run that processes no sample divides by a zero sample count. With the
asset root unresolved, with `testsPerDigit = 0`, and with a label directory that
holds no png file, `RunMnistSuite` returns the three totals as `0`, and both the
average runtime and the accuracy are the quotient `0 / 0`, which is no number. -/
theorem RunMnistSuite_no_sample_divides_by_zero :
    (RunMnistSuite (10 : Int) (none : Option (List (DirectoryEntry ℚ)))
        = ⟨none, 0, 0, 0⟩ ∧
      RunMnistSuite_accuracy (10 : Int) (none : Option (List (DirectoryEntry ℚ)))
        = none) ∧
      (RunMnistSuite (0 : Int) (some [(⟨"7", false, [⟨7, 1⟩]⟩ : DirectoryEntry ℚ)])
        = ⟨none, 0, 0, 0⟩ ∧
      RunMnistSuite_accuracy (0 : Int)
        (some [(⟨"7", false, [⟨7, 1⟩]⟩ : DirectoryEntry ℚ)]) = none) ∧
      (RunMnistSuite (10 : Int) (some [(⟨"7", false, []⟩ : DirectoryEntry ℚ)])
        = ⟨none, 0, 0, 0⟩ ∧
      RunMnistSuite_accuracy (10 : Int)
        (some [(⟨"7", false, []⟩ : DirectoryEntry ℚ)]) = none) := by
  decide

end Mnist
